import Mathlib

/-!
Verification of the caption-synthesis pipeline in `src/main.py` (Edge-TTS Pro).

Text is modelled as `List Char`, bytes as `List Nat`, tick counts as `Int`
(Python integers are unbounded).  Fallible code returns `Option`/`Except`.
The external TTS engine is modelled by the list of outcomes it produces on
successive calls (`Attempt` below).
-/

namespace EdgeTTS

instance {ε α : Type} [DecidableEq ε] [DecidableEq α] : DecidableEq (Except ε α)
  | .error x, .error y => decidable_of_iff (x = y) (by simp)
  | .error _, .ok _ => isFalse (by simp)
  | .ok _, .error _ => isFalse (by simp)
  | .ok x, .ok y => decidable_of_iff (x = y) (by simp)

/-- ASCII whitespace, matching Python's `\s` / `str.strip()` on ASCII text. -/
def isWS (c : Char) : Bool :=
  c = ' ' || c = '\t' || c = '\n' || c = '\r' || c = '\x0b' || c = '\x0c'

/-- Sentence-terminal punctuation used by the segmenter's regex `(?<=[.?!])`. -/
def isPunct (c : Char) : Bool :=
  c = '.' || c = '?' || c = '!'

/-- Python `str.strip()`: drop leading and trailing whitespace. -/
def stripChars (s : List Char) : List Char :=
  ((s.dropWhile isWS).reverse.dropWhile isWS).reverse

/-- Helper for `wordsOf`: `acc` is the current word, reversed. -/
def wordsAux : List Char → List Char → List (List Char)
  | acc, [] => if acc = [] then [] else [acc.reverse]
  | acc, c :: cs =>
    if isWS c then
      if acc = [] then wordsAux [] cs else acc.reverse :: wordsAux [] cs
    else wordsAux (c :: acc) cs

/-- The whitespace-separated words of a string (Python `str.split()`). -/
def wordsOf (s : List Char) : List (List Char) :=
  wordsAux [] s

/-- Python `" ".join(...)`. -/
def joinSpace : List (List Char) → List Char
  | [] => []
  | [t] => t
  | t :: ts => t ++ ' ' :: joinSpace ts

/-- All words of a list of strings, in order. -/
def wordsFlat (ls : List (List Char)) : List (List Char) :=
  (ls.map wordsOf).flatten

/-- A word-timing event: the dict `{"offset": ..., "duration": ..., "text": ...}`
used throughout `src/main.py` (engine `WordBoundary` chunks and synthetic
fallback events alike). -/
structure WEvent where
  offset : Int
  duration : Int
  text : List Char
deriving DecidableEq

def dummyWEvent : WEvent := { offset := 0, duration := 0, text := [] }

/-- A caption dict `{"start": ..., "end": ..., "text": ...}`. -/
structure Caption where
  start : Int
  stop : Int
  text : List Char
deriving DecidableEq

/-- `event['text'].strip()[-1] in ['.', '?', '!', ':']` (line 46).
`none` models the `IndexError` raised when the stripped text is empty. -/
def endsSentence (t : List Char) : Option Bool :=
  match (stripChars t).getLast? with
  | none => none
  | some c => some (c = '.' || c = '?' || c = '!' || c = ':')

/-- Closing a chunk into a caption (lines 48-52 and 56-60 of the source). -/
def chunkCaption (chunk : List WEvent) : Caption :=
  { start := (chunk.headD dummyWEvent).offset,
    stop := (chunk.getLastD dummyWEvent).offset + (chunk.getLastD dummyWEvent).duration,
    text := joinSpace (chunk.map (fun e => e.text)) }

/-- The scanning loop of `group_words_to_captions` (lines 42-60), carrying the
current chunk.  `none` models the `IndexError` on an empty stripped word. -/
def groupAux (mw : Nat) : List WEvent → List WEvent → Option (List Caption)
  | chunk, [] => some (if chunk = [] then [] else [chunkCaption chunk])
  | chunk, e :: rest =>
    match endsSentence e.text with
    | none => none
    | some isEnd =>
      let chunk' := chunk ++ [e]
      if mw ≤ chunk'.length ∨ (3 ≤ chunk'.length ∧ isEnd = true) then
        match groupAux mw [] rest with
        | none => none
        | some caps => some (chunkCaption chunk' :: caps)
      else groupAux mw chunk' rest

/-- `group_words_to_captions(events, max_words)` (lines 32-62). -/
def group_words_to_captions (events : List WEvent) (mw : Nat) : Option (List Caption) :=
  if events = [] then some [] else groupAux mw [] events

/-- Python `f"{n:02}"` / `f"{n:03}"`: decimal rendering left-padded with zeros. -/
def padZeros (w : Nat) (n : Int) : List Char :=
  let s := (toString n).data
  List.replicate (w - s.length) '0' ++ s

/-- `format_srt_time(ticks)` (lines 23-30), with the source's float arithmetic
idealized as exact arithmetic.  Every intermediate value
(`seconds = ticks / 10_000_000` and its `// 3600`, `% 3600`, `% 60`,
fractional remainders) is an integer multiple of `10^-7` seconds, so the
computation is carried out exactly on integer tick counts: Python's float
`//` and `%` are floored (`Int.fdiv` / `Int.fmod`) and `int()` truncates
toward zero (`Int.tdiv`).  `hours = int(seconds // 3600)`,
`minutes = int((seconds % 3600) // 60)`, `secs = int(seconds % 60)`,
`millis = int((seconds - int(seconds)) * 1000)`. -/
def format_srt_time (ticks : Int) : List Char :=
  let hours : Int := ticks.fdiv 36000000000
  let minutes : Int := (ticks.fmod 36000000000).fdiv 600000000
  let secs : Int := (ticks.fmod 600000000).tdiv 10000000
  let millis : Int := ((ticks - 10000000 * (ticks.tdiv 10000000)) * 1000).tdiv 10000000
  padZeros 2 hours ++ ':' :: padZeros 2 minutes ++ ':' :: padZeros 2 secs
    ++ ',' :: padZeros 3 millis

/-- Python `"\n".join(...)`. -/
def joinNewline : List (List Char) → List Char
  | [] => []
  | [t] => t
  | t :: ts => t ++ '\n' :: joinNewline ts

/-- `generate_srt_string(captions)` (lines 64-74): numbered cues joined by
newlines, 1-based indices. -/
def generate_srt_string (captions : List Caption) : List Char :=
  let lines := (captions.enum.map (fun p =>
    [(toString (p.1 + 1)).data,
     format_srt_time p.2.start ++ ' ' :: '-' :: '-' :: '>' :: ' ' :: format_srt_time p.2.stop,
     p.2.text,
     []])).flatten
  joinNewline lines

/-- One call of the external engine stream for a segment: either it raises
(`err`, a transport/protocol error) or it completes, yielding the collected
audio bytes and `WordBoundary` events in emission order. -/
inductive Attempt where
  | err : Attempt
  | ok : List Nat → List WEvent → Attempt
deriving DecidableEq

/-- The audio bytes collected by an attempt (empty for a raised error). -/
def attemptAudio : Attempt → List Nat
  | .err => []
  | .ok b _ => b

/-- The retry loop of `generate_segment` (lines 84-127).  `fuel` is the number
of retries still available (`retries - attempt`); `la`/`le` are `last_audio`
and `last_events`.  `Except.error ()` models the re-raised engine exception. -/
def genSegAux : List Attempt → Nat → List Nat → List WEvent →
    Except Unit (List Nat × List WEvent)
  | [], _, la, le => .ok (la, le)
  | a :: rest, fuel, la, le =>
    match a with
    | .err =>
      if fuel = 0 then .error () else genSegAux rest (fuel - 1) la le
    | .ok audio events =>
      if audio ≠ [] ∧ events = [] then
        if fuel = 0 then .ok (audio, []) else genSegAux rest (fuel - 1) audio events
      else .ok (audio, events)

/-- `generate_segment(text, voice, rate, pitch, retries)` (lines 76-127),
abstracted over the engine's behaviour on each attempt. -/
def generate_segment (attempts : List Attempt) (retries : Nat) :
    Except Unit (List Nat × List WEvent) :=
  genSegAux attempts retries [] []

/-- Line 87: `safe_rate = rate if rate else "+0%"` — the rate string actually
passed to `edge_tts.Communicate`. -/
def safe_rate (rate : List Char) : List Char :=
  if rate = [] then '+' :: '0' :: '%' :: [] else rate

/-- Line 88: `safe_pitch = pitch if pitch else "+0Hz"` — the pitch string
actually passed to `edge_tts.Communicate`. -/
def safe_pitch (pitch : List Char) : List Char :=
  if pitch = [] then '+' :: '0' :: 'H' :: 'z' :: [] else pitch

/-- `re.split(r'(?<=[.?!])\s+', text)` (line 135): split at each maximal
whitespace run immediately preceded by `.`, `?` or `!`.  `prev` is the
previous character, `acc` the current unit (reversed), and `inRun` is true
while the characters of a matched whitespace run are being consumed. -/
def splitSentAux : List Char → Option Char → List Char → Bool → List (List Char)
  | [], _, acc, _ => [acc.reverse]
  | c :: cs, _, acc, true =>
    if isWS c then splitSentAux cs (some c) acc true
    else splitSentAux cs (some c) [c] false
  | c :: cs, prev, acc, false =>
    if isWS c ∧ (prev.elim false isPunct) = true then
      acc.reverse :: splitSentAux cs (some c) [] true
    else splitSentAux cs (some c) (c :: acc) false

/-- The sentence-like units of the input text (line 135). -/
def splitSentences (text : List Char) : List (List Char) :=
  splitSentAux text none [] false

/-- The greedy packing loop (lines 136-144): pack consecutive units into a
running buffer while `len(current) + len(s) < 1000`, else close the buffer
(stripped) as a segment. -/
def packAux : List (List Char) → List (List Char) → List Char → List (List Char)
  | [], segs, current =>
    if current ≠ [] then segs ++ [stripChars current] else segs
  | s :: rest, segs, current =>
    if current.length + s.length < 1000 then
      packAux rest segs (current ++ s ++ [' '])
    else
      packAux rest (segs ++ [stripChars current]) (s ++ [' '])

/-- The segmentation step of `generate_speech` (lines 135-144). -/
def segmentText (text : List Char) : List (List Char) :=
  packAux (splitSentences text) [] []

/-- The accumulator of the stitching loop (lines 146-148): `full_audio`,
`all_events` and `global_offset`. -/
structure StitchState where
  audio : List Nat
  events : List WEvent
  offset : Int
deriving DecidableEq

def initState : StitchState := { audio := [], events := [], offset := 0 }

/-- One iteration of the stitching loop (lines 155-182) for a non-blank
segment `seg` whose synthesis returned `res = (audio bytes, events)`:
append the audio; if events came back, rebase them by `global_offset` and
advance the offset past the last of them plus the 200 ms gap; otherwise
append one synthetic event covering the whole segment with an estimated
duration of `len(seg) * 800_000` ticks and advance by that estimate. -/
def stitchSegment (st : StitchState) (seg : List Char) (res : List Nat × List WEvent) :
    StitchState :=
  let audio' := st.audio ++ res.1
  if res.2 ≠ [] then
    let rebased := res.2.map (fun e => { e with offset := e.offset + st.offset })
    let last := rebased.getLastD dummyWEvent
    { audio := audio',
      events := st.events ++ rebased,
      offset := last.offset + last.duration + 2000000 }
  else
    let est : Int := (seg.length : Int) * 800000
    { audio := audio',
      events := st.events ++ [{ offset := st.offset, duration := est, text := seg }],
      offset := st.offset + est }

/-- The stitching loop over a list of (segment, synthesis result) pairs. -/
def runStitch (pairs : List (List Char × (List Nat × List WEvent))) (st : StitchState) :
    StitchState :=
  pairs.foldl (fun st p => stitchSegment st p.1 p.2) st

/-- The segment loop of `generate_speech` (lines 151-182): blank segments are
skipped (line 152); each remaining segment consumes the next engine behaviour
from `eng` via `generate_segment` with the default `retries=2`; an engine
error aborts the loop. -/
def runSegmentsE : List (List Char) → List (List Attempt) → StitchState →
    Except Unit StitchState
  | [], _, st => .ok st
  | seg :: rest, eng, st =>
    if stripChars seg = [] then runSegmentsE rest eng st
    else
      match generate_segment (eng.headD []) 2 with
      | .error e => .error e
      | .ok res => runSegmentsE rest eng.tail (stitchSegment st seg res)

/-- The final response payload: audio bytes and SRT text. -/
structure PipelineOut where
  audio : List Nat
  srt : List Char
deriving DecidableEq

/-- `generate_speech` (lines 129-208), abstracted over the engine's behaviour:
segment the text, run the stitching loop, group events into captions,
serialize to SRT (with the line-191 placeholder when the SRT text is empty).
`Except.error ()` models the `except` clause raising `HTTPException(500)`;
it is reached both on an engine error and on the grouping `IndexError`. -/
def generate_speech (text : List Char) (eng : List (List Attempt)) :
    Except Unit PipelineOut :=
  match runSegmentsE (segmentText text) eng initState with
  | .error e => .error e
  | .ok st =>
    match group_words_to_captions st.events 6 with
    | none => .error ()
    | some caps =>
      let srt := generate_srt_string caps
      let srt' := if srt = [] then
          ('1' :: '\n' :: "00:00:00,000 --> 00:00:10,000".data) ++ '\n' :: (text.take 50 ++ ['.', '.', '.'])
        else srt
      .ok { audio := st.audio, srt := srt' }

/-- The per-event rebasing of line 163: `event['offset'] += global_offset`. -/
def rebaseBy (off : Int) (evs : List WEvent) : List WEvent :=
  evs.map (fun e => { e with offset := e.offset + off })

/-- An attempt that yields audio but no `WordBoundary` events. -/
def audioNoEv : Attempt → Bool
  | .err => false
  | .ok b ev => !b.isEmpty && ev.isEmpty

/-- The number of non-blank segments, which is exactly the number of engine
behaviours the segment loop consumes. -/
def nonBlankCount (segs : List (List Char)) : Nat :=
  segs.countP (fun s => !(stripChars s).isEmpty)

/-- Offset comparison between events. -/
def offLE (a b : WEvent) : Prop := a.offset ≤ b.offset

/-- A well-formed segment-relative engine result: non-negative offsets and
durations, offsets non-decreasing in emission order. -/
def localOK (evs : List WEvent) : Prop :=
  (∀ e ∈ evs, 0 ≤ e.offset ∧ 0 ≤ e.duration) ∧ evs.Pairwise offLE

/-- Invariant of the stitching accumulator: the running offset is non-negative,
every accumulated event has a non-negative global offset at most the running
offset, and the accumulated offsets are non-decreasing. -/
def StitchInv (st : StitchState) : Prop :=
  0 ≤ st.offset ∧ (∀ e ∈ st.events, 0 ≤ e.offset ∧ e.offset ≤ st.offset) ∧
    st.events.Pairwise offLE

instance (evs : List WEvent) : Decidable (localOK evs) := by
  unfold localOK offLE; infer_instance

/-- A chunk that the loop was entitled to close: either it reached
`max_words`, or it had at least 3 events and its last word's trimmed text
ends in a sentence-terminal mark. -/
def goodClose (mw : Nat) (ch : List WEvent) : Prop :=
  ch.length = mw ∨
    (3 ≤ ch.length ∧ endsSentence ((ch.getLastD dummyWEvent).text) = some true)

example : group_words_to_captions [⟨0, 5, ['H', 'i']⟩, ⟨5, 5, ['y', 'o']⟩] 6 =
    some [⟨0, 10, ['H', 'i', ' ', 'y', 'o']⟩] := by decide

example : group_words_to_captions [⟨0, 5, ['H', 'i']⟩, ⟨5, 5, [' ']⟩] 6 = none := by decide

example : generate_speech ['H', 'i'] [[.err, .err, .err]] = .error () := by decide

example : generate_segment [.err, .ok [2] [⟨0, 1, ['a']⟩]] 2 = .ok ([2], [⟨0, 1, ['a']⟩]) := by
  decide

/-! ### Lemmas about words and whitespace -/

lemma wordsOf_nil : wordsOf [] = [] := rfl

lemma wordsAux_append_ws {c : Char} (hc : isWS c = true) :
    ∀ (a acc b : List Char), wordsAux acc (a ++ c :: b) = wordsAux acc a ++ wordsAux [] b := by
  intro a
  induction a with
  | nil =>
    intro acc b
    by_cases h : acc = [] <;> simp [wordsAux, h, hc]
  | cons d a ih =>
    intro acc b
    by_cases hd : isWS d
    · by_cases h : acc = [] <;> simp [wordsAux, hd, h, ih]
    · simp [wordsAux, hd, ih]

lemma wordsOf_append_ws {c : Char} (hc : isWS c = true) (a b : List Char) :
    wordsOf (a ++ c :: b) = wordsOf a ++ wordsOf b :=
  wordsAux_append_ws hc a [] b

lemma wordsOf_all_ws {ws : List Char} (h : ∀ c ∈ ws, isWS c = true) : wordsOf ws = [] := by
  induction ws with
  | nil => rfl
  | cons c cs ih =>
    have hc : isWS c = true := h c (List.mem_cons_self c cs)
    have hcs := ih (fun x hx => h x (List.mem_cons_of_mem c hx))
    simpa [wordsOf, wordsAux, hc] using hcs

lemma wordsOf_append_all_ws {ws : List Char} (h : ∀ c ∈ ws, isWS c = true) (a : List Char) :
    wordsOf (a ++ ws) = wordsOf a := by
  cases ws with
  | nil => simp
  | cons c cs =>
    rw [wordsOf_append_ws (h c (List.mem_cons_self c cs)) a cs,
      wordsOf_all_ws (fun x hx => h x (List.mem_cons_of_mem c hx))]
    simp

lemma wordsOf_all_ws_append {ws : List Char} (h : ∀ c ∈ ws, isWS c = true) (a : List Char) :
    wordsOf (ws ++ a) = wordsOf a := by
  induction ws with
  | nil => rfl
  | cons c cs ih =>
    have hc : isWS c = true := h c (List.mem_cons_self c cs)
    have : wordsOf ((c :: cs) ++ a) = wordsOf ([] ++ c :: (cs ++ a)) := rfl
    rw [this, wordsOf_append_ws hc, wordsOf_nil, List.nil_append]
    exact ih (fun x hx => h x (List.mem_cons_of_mem c hx))

lemma wordsOf_strip (s : List Char) : wordsOf (stripChars s) = wordsOf s := by
  have h1 : wordsOf (s.dropWhile isWS) = wordsOf s := by
    conv_rhs => rw [← List.takeWhile_append_dropWhile (p := isWS) (l := s)]
    exact (wordsOf_all_ws_append (fun c hc => List.mem_takeWhile_imp hc) _).symm
  have h2 : s.dropWhile isWS =
      stripChars s ++ ((s.dropWhile isWS).reverse.takeWhile isWS).reverse := by
    rw [stripChars, ← List.reverse_append, List.takeWhile_append_dropWhile,
      List.reverse_reverse]
  have h3 : wordsOf (s.dropWhile isWS) = wordsOf (stripChars s) := by
    rw [h2]
    exact wordsOf_append_all_ws
      (fun c hc => List.mem_takeWhile_imp (List.mem_reverse.mp hc)) _
  rw [← h3, h1]

lemma wordsFlat_nil : wordsFlat [] = [] := rfl

lemma wordsFlat_cons (t : List Char) (ts : List (List Char)) :
    wordsFlat (t :: ts) = wordsOf t ++ wordsFlat ts := by
  simp [wordsFlat]

lemma wordsFlat_append (a b : List (List Char)) :
    wordsFlat (a ++ b) = wordsFlat a ++ wordsFlat b := by
  simp [wordsFlat]

lemma wordsOf_joinSpace (ls : List (List Char)) : wordsOf (joinSpace ls) = wordsFlat ls := by
  induction ls with
  | nil => rfl
  | cons t ts ih =>
    cases ts with
    | nil => simp [joinSpace, wordsFlat]
    | cons t2 ts2 =>
      have hj : joinSpace (t :: t2 :: ts2) = t ++ ' ' :: joinSpace (t2 :: ts2) := rfl
      rw [hj, wordsOf_append_ws (by decide), ih, wordsFlat_cons]
      simp [wordsFlat_cons]

lemma wordsAux_no_ws {t : List Char} (h : ∀ c ∈ t, isWS c = false) :
    ∀ acc, wordsAux acc t = if acc.reverse ++ t = [] then [] else [acc.reverse ++ t] := by
  induction t with
  | nil =>
    intro acc
    by_cases h' : acc = [] <;> simp [wordsAux, h']
  | cons c cs ih =>
    intro acc
    have hc : isWS c = false := h c (List.mem_cons_self c cs)
    rw [wordsAux]
    simp only [hc, Bool.false_eq_true, if_false]
    rw [ih (fun x hx => h x (List.mem_cons_of_mem c hx)) (c :: acc)]
    simp

lemma wordsOf_single {t : List Char} (h1 : t ≠ []) (h2 : ∀ c ∈ t, isWS c = false) :
    wordsOf t = [t] := by
  have := wordsAux_no_ws h2 []
  simpa [wordsOf, h1] using this

/-! ### The segmentation step preserves words -/

lemma wordsFlat_splitSentAux :
    ∀ (l : List Char) (prev : Option Char) (acc : List Char) (inRun : Bool),
      (inRun = true → acc = []) →
      wordsFlat (splitSentAux l prev acc inRun) = wordsOf (acc.reverse ++ l) := by
  intro l
  induction l with
  | nil =>
    intro prev acc inRun _
    simp [splitSentAux, wordsFlat]
  | cons c cs ih =>
    intro prev acc inRun h
    cases inRun with
    | true =>
      have hacc : acc = [] := h rfl
      subst hacc
      by_cases hc : isWS c
      · rw [splitSentAux, if_pos hc, ih (some c) [] true (fun _ => rfl)]
        have : wordsOf ((c :: [] : List Char) ++ cs) = wordsOf cs :=
          wordsOf_all_ws_append (by simpa using hc) cs
        simpa using this.symm
      · rw [splitSentAux, if_neg hc, ih (some c) [c] false (by simp)]
        rfl
    | false =>
      by_cases hs : isWS c ∧ (prev.elim false isPunct) = true
      · rw [splitSentAux, if_pos hs, wordsFlat_cons,
          ih (some c) [] true (fun _ => rfl), wordsOf_append_ws hs.1]
        simp
      · rw [splitSentAux, if_neg hs, ih (some c) (c :: acc) false (by simp)]
        simp

lemma wordsOf_pack_step {current s : List Char}
    (h : current = [] ∨ ∃ c0, current = c0 ++ [' ']) :
    wordsOf (current ++ s ++ [' ']) = wordsOf current ++ wordsOf s := by
  have hsp : wordsOf (s ++ [' ']) = wordsOf s :=
    wordsOf_append_all_ws (by simp [isWS]) s
  rcases h with rfl | ⟨c0, rfl⟩
  · simpa using hsp
  · have h1 : (c0 ++ [' ']) ++ s ++ [' '] = c0 ++ ' ' :: (s ++ [' ']) := by simp
    have h2 : wordsOf (c0 ++ [' ']) = wordsOf c0 :=
      wordsOf_append_all_ws (by simp [isWS]) c0
    rw [h1, wordsOf_append_ws (by decide), hsp, h2]

lemma wordsFlat_packAux :
    ∀ (units segs : List (List Char)) (current : List Char),
      (current = [] ∨ ∃ c0, current = c0 ++ [' ']) →
      wordsFlat (packAux units segs current) =
        wordsFlat segs ++ wordsOf current ++ wordsFlat units := by
  intro units
  induction units with
  | nil =>
    intro segs current h
    by_cases hc : current = []
    · simp [packAux, hc, wordsFlat, wordsOf_nil]
    · simp [packAux, hc, wordsFlat_append, wordsFlat_cons, wordsFlat_nil, wordsOf_strip]
  | cons s rest ih =>
    intro segs current h
    rw [packAux]
    by_cases hlen : current.length + s.length < 1000
    · rw [if_pos hlen, ih segs (current ++ s ++ [' ']) (Or.inr ⟨current ++ s, by simp⟩),
        wordsOf_pack_step h, wordsFlat_cons]
      simp
    · rw [if_neg hlen, ih (segs ++ [stripChars current]) (s ++ [' ']) (Or.inr ⟨s, rfl⟩),
        wordsFlat_append, wordsOf_append_all_ws (by simp [isWS]) s, wordsFlat_cons,
        wordsFlat_nil, wordsFlat_cons, wordsOf_strip]
      simp

/-- C7: for every input text, concatenating the texts of all segments produced
by the segmentation step (lines 135-144 of `src/main.py`) with single spaces
reproduces the original text up to whitespace normalization: the segments'
word sequence, in order, equals the input's word sequence — no word dropped,
none duplicated, order preserved. -/
theorem segmentation_roundtrip (text : List Char) :
    wordsOf (joinSpace (segmentText text)) = wordsOf text := by
  rw [wordsOf_joinSpace, segmentText,
    wordsFlat_packAux (splitSentences text) [] [] (Or.inl rfl), splitSentences,
    wordsFlat_splitSentAux text none [] false (by simp)]
  simp [wordsFlat_nil, wordsOf_nil]

/-! ### Monotonicity of the stitched timeline -/

lemma getLastD_mem {α : Type} : ∀ (l : List α) (d : α), l ≠ [] → l.getLastD d ∈ l := by
  intro l
  induction l with
  | nil => intro d h; exact absurd rfl h
  | cons a rest ih =>
    intro d _
    rw [List.getLastD_cons]
    cases hr : rest with
    | nil => subst hr; simp [List.getLastD]
    | cons b rs =>
      subst hr
      exact List.mem_cons_of_mem a (ih a (by simp))

lemma pairwise_le_getLastD :
    ∀ (l : List WEvent), l.Pairwise offLE → ∀ (d : WEvent), ∀ e ∈ l,
      e.offset ≤ (l.getLastD d).offset := by
  intro l
  induction l with
  | nil => intro _ d e he; cases he
  | cons a rest ih =>
    intro hp d e he
    rw [List.getLastD_cons]
    obtain ⟨ha, hrest⟩ := List.pairwise_cons.mp hp
    rcases List.mem_cons.mp he with rfl | he'
    · cases hr : rest with
      | nil => subst hr; simp [List.getLastD]
      | cons b rs =>
        subst hr
        exact ha _ (getLastD_mem _ _ (by simp))
    · exact ih hrest a e he'

lemma stitchSegment_eq_real (st : StitchState) (seg : List Char) (au : List Nat)
    (evs : List WEvent) (h : evs ≠ []) :
    stitchSegment st seg (au, evs) =
      { audio := st.audio ++ au,
        events := st.events ++ rebaseBy st.offset evs,
        offset := ((rebaseBy st.offset evs).getLastD dummyWEvent).offset +
          ((rebaseBy st.offset evs).getLastD dummyWEvent).duration + 2000000 } := by
  simp [stitchSegment, rebaseBy, h]

lemma stitchSegment_eq_fallback (st : StitchState) (seg : List Char) (au : List Nat) :
    stitchSegment st seg (au, []) =
      { audio := st.audio ++ au,
        events := st.events ++ [⟨st.offset, (seg.length : Int) * 800000, seg⟩],
        offset := st.offset + (seg.length : Int) * 800000 } := by
  simp [stitchSegment]

lemma stitch_step (st : StitchState) (seg : List Char) (res : List Nat × List WEvent)
    (hInv : StitchInv st) (hOK : localOK res.2) :
    StitchInv (stitchSegment st seg res) ∧ st.offset ≤ (stitchSegment st seg res).offset := by
  obtain ⟨hoff, hbound, hpw⟩ := hInv
  obtain ⟨hok1, hok2⟩ := hOK
  obtain ⟨au, evs⟩ := res
  simp only at hok1 hok2
  by_cases hne : evs = []
  · subst hne
    rw [stitchSegment_eq_fallback]
    dsimp only
    have hest : (0 : Int) ≤ (seg.length : Int) * 800000 := by positivity
    refine ⟨⟨?_, ?_, ?_⟩, ?_⟩
    · show (0 : Int) ≤ st.offset + (seg.length : Int) * 800000
      linarith
    · intro e he
      rcases List.mem_append.mp he with he' | he'
      · refine ⟨(hbound e he').1, le_trans (hbound e he').2 ?_⟩
        show st.offset ≤ st.offset + (seg.length : Int) * 800000
        linarith
      · rcases List.mem_singleton.mp he' with rfl
        refine ⟨hoff, ?_⟩
        show st.offset ≤ st.offset + (seg.length : Int) * 800000
        linarith
    · refine List.pairwise_append.mpr ⟨hpw, List.pairwise_singleton _ _, ?_⟩
      intro a ha b hb
      rcases List.mem_singleton.mp hb with rfl
      exact (hbound a ha).2
    · show st.offset ≤ st.offset + (seg.length : Int) * 800000
      linarith
  · rw [stitchSegment_eq_real st seg au evs hne]
    dsimp only
    have hrne : rebaseBy st.offset evs ≠ [] := by simp [rebaseBy, hne]
    have hrb : ∀ e' ∈ rebaseBy st.offset evs,
        st.offset ≤ e'.offset ∧ 0 ≤ e'.offset ∧ 0 ≤ e'.duration := by
      intro e' he'
      rcases List.mem_map.mp he' with ⟨e, he, rfl⟩
      have h1 := (hok1 e he).1
      have h2 := (hok1 e he).2
      refine ⟨?_, ?_, ?_⟩ <;> simp <;> linarith
    have hrpw : (rebaseBy st.offset evs).Pairwise offLE := by
      rw [rebaseBy, List.pairwise_map]
      refine hok2.imp ?_
      intro a b hab
      simp only [offLE] at hab ⊢
      simpa using by linarith
    have hlmem := getLastD_mem (rebaseBy st.offset evs) dummyWEvent hrne
    have hlmax := pairwise_le_getLastD (rebaseBy st.offset evs) hrpw dummyWEvent
    have hldur : 0 ≤ ((rebaseBy st.offset evs).getLastD dummyWEvent).duration :=
      (hrb _ hlmem).2.2
    have hlst : st.offset ≤ ((rebaseBy st.offset evs).getLastD dummyWEvent).offset :=
      (hrb _ hlmem).1
    have hstep : st.offset ≤ ((rebaseBy st.offset evs).getLastD dummyWEvent).offset +
        ((rebaseBy st.offset evs).getLastD dummyWEvent).duration + 2000000 := by linarith
    refine ⟨⟨le_trans hoff hstep, ?_, ?_⟩, hstep⟩
    · intro e he
      rcases List.mem_append.mp he with he' | he'
      · exact ⟨(hbound e he').1, le_trans (hbound e he').2 hstep⟩
      · refine ⟨(hrb e he').2.1, ?_⟩
        have := hlmax e he'
        show e.offset ≤ ((rebaseBy st.offset evs).getLastD dummyWEvent).offset +
          ((rebaseBy st.offset evs).getLastD dummyWEvent).duration + 2000000
        linarith
    · refine List.pairwise_append.mpr ⟨hpw, hrpw, ?_⟩
      intro a ha b hb
      exact le_trans (hbound a ha).2 (hrb b hb).1

lemma runStitch_nil (st : StitchState) : runStitch [] st = st := rfl

lemma runStitch_cons (p : List Char × (List Nat × List WEvent))
    (rest : List (List Char × (List Nat × List WEvent))) (st : StitchState) :
    runStitch (p :: rest) st = runStitch rest (stitchSegment st p.1 p.2) := rfl

lemma runStitch_append (a b : List (List Char × (List Nat × List WEvent))) (st : StitchState) :
    runStitch (a ++ b) st = runStitch b (runStitch a st) :=
  List.foldl_append _ _ _ _

lemma runStitch_inv :
    ∀ (pairs : List (List Char × (List Nat × List WEvent))) (st : StitchState),
      (∀ p ∈ pairs, localOK p.2.2) → StitchInv st → StitchInv (runStitch pairs st) := by
  intro pairs
  induction pairs with
  | nil => intro st _ h; exact h
  | cons p rest ih =>
    intro st hok hinv
    rw [runStitch_cons]
    have h1 := stitch_step st p.1 p.2 hinv (hok p (List.mem_cons_self p rest))
    exact ih _ (fun q hq => hok q (List.mem_cons_of_mem p hq)) h1.1

lemma initState_inv : StitchInv initState := by
  refine ⟨le_refl 0, ?_, ?_⟩ <;> simp [initState]

/-- C1: for every sequence of (segment, engine result) pairs fed to the
stitching loop (lines 146-182 of `src/main.py`), if each result's
segment-relative events have non-negative, non-decreasing offsets and
non-negative durations, then the accumulated global event offsets are
non-decreasing, every global offset is non-negative, and the running
`global_offset` never decreases from one loop iteration to the next. -/
theorem timeline_offsets_monotone (pairs : List (List Char × (List Nat × List WEvent)))
    (h : ∀ p ∈ pairs, localOK p.2.2) :
    (runStitch pairs initState).events.Pairwise offLE ∧
    (∀ e ∈ (runStitch pairs initState).events, 0 ≤ e.offset) ∧
    (∀ i : Nat, (runStitch (pairs.take i) initState).offset ≤
      (runStitch (pairs.take (i + 1)) initState).offset) := by
  have hfull := runStitch_inv pairs initState h initState_inv
  refine ⟨hfull.2.2, fun e he => (hfull.2.1 e he).1, ?_⟩
  intro i
  rcases Nat.lt_or_ge i pairs.length with hi | hi
  · have ht : pairs.take (i + 1) = pairs.take i ++ [pairs.get ⟨i, hi⟩] := by
      rw [← List.concat_eq_append]
      exact (List.take_concat_get pairs i hi).symm
    rw [ht, runStitch_append]
    have hinv_i := runStitch_inv (pairs.take i) initState
      (fun p hp => h p (List.take_subset i pairs hp)) initState_inv
    have hmem : pairs.get ⟨i, hi⟩ ∈ pairs := List.get_mem pairs i hi
    have := stitch_step (runStitch (pairs.take i) initState)
      (pairs.get ⟨i, hi⟩).1 (pairs.get ⟨i, hi⟩).2 hinv_i (h _ hmem)
    simpa [runStitch_cons, runStitch_nil] using this.2
  · rw [List.take_of_length_le hi, List.take_of_length_le (le_trans hi (Nat.le_succ i))]

/-- Witness for `timeline_offsets_monotone`: a two-segment run, the first with
real engine events, the second falling back to the synthetic estimate. -/
theorem timeline_offsets_monotone_witness :
    (runStitch [(['H', 'i'], ([1], [⟨0, 5, ['H', 'i']⟩])), (['y', 'o'], ([], []))]
      initState).events.Pairwise offLE ∧
    (∀ e ∈ (runStitch [(['H', 'i'], ([1], [⟨0, 5, ['H', 'i']⟩])), (['y', 'o'], ([], []))]
      initState).events, 0 ≤ e.offset) ∧
    (∀ i : Nat,
      (runStitch ([(['H', 'i'], ([1], [⟨0, 5, ['H', 'i']⟩])), (['y', 'o'], ([], []))].take i)
        initState).offset ≤
      (runStitch ([(['H', 'i'], ([1], [⟨0, 5, ['H', 'i']⟩])), (['y', 'o'], ([], []))].take (i + 1))
        initState).offset) :=
  timeline_offsets_monotone
    [(['H', 'i'], ([1], [⟨0, 5, ['H', 'i']⟩])), (['y', 'o'], ([], []))] (by decide)

/-! ### The fallback branch: a single synthetic event, no inter-segment gap -/

/-- C2 counterexample: for the two-word segment "ab cd" synthesized with no
events, the stitcher does NOT distribute the estimated duration across the
two words (which would append two events): it appends exactly one synthetic
event whose text is the whole segment, contradicting the claim's
"not as a single event covering the whole segment unless the segment has
exactly one word". -/
theorem fallback_proportional_counterexample :
    (wordsOf ['a', 'b', ' ', 'c', 'd']).length = 2 ∧
    (stitchSegment initState ['a', 'b', ' ', 'c', 'd'] ([], [])).events.length ≠ 2 ∧
    (stitchSegment initState ['a', 'b', ' ', 'c', 'd'] ([], [])).events =
      [⟨0, 4000000, ['a', 'b', ' ', 'c', 'd']⟩] := by
  refine ⟨by decide, by decide, by decide⟩

/-- C2 amended: for every segment whose synthesis returns an empty event list,
the stitcher appends exactly ONE synthetic WordEvent, at the current global
offset, whose text is the whole segment and whose duration is the segment's
character count times 800,000 ticks — regardless of how many words the
segment has (lines 168-182 of `src/main.py`). -/
theorem fallback_single_event (st : StitchState) (seg : List Char) (au : List Nat) :
    (stitchSegment st seg (au, [])).events =
      st.events ++ [⟨st.offset, (seg.length : Int) * 800000, seg⟩] := by
  rw [stitchSegment_eq_fallback]

/-- C6 counterexample: after the fallback branch for segment "Hi"
(2 characters, estimate 1,600,000 ticks) the running offset is exactly the
estimate — the inter-segment gap of 2,000,000 ticks that the real-events
branch adds (line 167) is NOT added here, contradicting the claim. -/
theorem fallback_gap_counterexample :
    (stitchSegment initState ['H', 'i'] ([], [])).offset = 1600000 ∧
    (stitchSegment initState ['H', 'i'] ([], [])).offset ≠ 1600000 + 2000000 := by
  refine ⟨by decide, by decide⟩

/-- C6 amended: for every segment synthesized with an empty event list, the
running global offset advances by the estimated duration ONLY
(`global_offset += estimated_duration`, line 182); the 2,000,000-tick
inter-segment gap is added only in the real-events branch. -/
theorem fallback_offset_no_gap (st : StitchState) (seg : List Char) (au : List Nat) :
    (stitchSegment st seg (au, [])).offset = st.offset + (seg.length : Int) * 800000 := by
  rw [stitchSegment_eq_fallback]

/-! ### Rate and pitch normalization -/

/-- C5 counterexample: the literal neutral strings ARE passed to the engine:
a neutral `"+0%"` rate is forwarded unchanged, and an empty rate/pitch is
replaced by the literal neutral string rather than by "no adjustment"
(lines 87-88 of `src/main.py`). -/
theorem neutral_rate_counterexample :
    safe_rate ['+', '0', '%'] = ['+', '0', '%'] ∧
    safe_rate [] = ['+', '0', '%'] ∧
    safe_pitch [] = ['+', '0', 'H', 'z'] := by
  refine ⟨by decide, by decide, by decide⟩

/-- C5 amended: empty rate/pitch values are replaced by the literal neutral
defaults `"+0%"` / `"+0Hz"`, and every non-empty value (neutral strings
included) is passed to the engine unchanged; the engine always receives a
non-empty adjustment string — neutral values are never omitted or nulled. -/
theorem neutral_rate_defaulted (rate pitch : List Char)
    (hr : rate ≠ []) (hp : pitch ≠ []) :
    safe_rate rate = rate ∧ safe_pitch pitch = pitch ∧
    safe_rate [] = ['+', '0', '%'] ∧ safe_pitch [] = ['+', '0', 'H', 'z'] ∧
    (∀ r : List Char, safe_rate r ≠ []) ∧ (∀ p : List Char, safe_pitch p ≠ []) := by
  refine ⟨by simp [safe_rate, hr], by simp [safe_pitch, hp], rfl, rfl, ?_, ?_⟩
  · intro r
    by_cases h : r = [] <;> simp [safe_rate, h]
  · intro p
    by_cases h : p = [] <;> simp [safe_pitch, h]

/-- Witness for `neutral_rate_defaulted` at a concrete non-neutral rate and
pitch. -/
theorem neutral_rate_defaulted_witness :
    safe_rate ['+', '1', '0', '%'] = ['+', '1', '0', '%'] ∧
    safe_pitch ['+', '5', 'H', 'z'] = ['+', '5', 'H', 'z'] ∧
    safe_rate [] = ['+', '0', '%'] ∧ safe_pitch [] = ['+', '0', 'H', 'z'] ∧
    (∀ r : List Char, safe_rate r ≠ []) ∧ (∀ p : List Char, safe_pitch p ≠ []) :=
  neutral_rate_defaulted ['+', '1', '0', '%'] ['+', '5', 'H', 'z'] (by decide) (by decide)

/-! ### The retry policy of generate_segment -/

lemma genSegAux_all_noev :
    ∀ (attempts : List Attempt) (la : List Nat) (le' : List WEvent),
      attempts ≠ [] → (∀ a ∈ attempts, audioNoEv a = true) →
      genSegAux attempts (attempts.length - 1) la le' =
        .ok (attemptAudio (attempts.getLastD .err), []) := by
  intro attempts
  induction attempts with
  | nil => intro la le' h _; exact absurd rfl h
  | cons a rest ih =>
    intro la le' _ hall
    have ha := hall a (List.mem_cons_self a rest)
    cases a with
    | err => simp [audioNoEv] at ha
    | ok b ev =>
      have hb : b ≠ [] ∧ ev = [] := by
        simpa [audioNoEv, List.isEmpty_iff] using ha
      obtain ⟨hb1, rfl⟩ := hb
      rw [genSegAux]
      cases rest with
      | nil =>
        simp [hb1, attemptAudio, List.getLastD]
      | cons a2 rest2 =>
        have hfz : (a2 :: rest2).length ≠ 0 := by simp
        have hlen : (Attempt.ok b [] :: a2 :: rest2).length - 1 = (a2 :: rest2).length := rfl
        rw [hlen, if_pos ⟨hb1, rfl⟩, if_neg hfz]
        have := ih b [] (by simp) (fun x hx => hall x (List.mem_cons_of_mem _ hx))
        rw [this]
        simp [List.getLastD_cons]

/-- C3: if on the initial attempt and every retry the engine stream yields
audio bytes but zero `WordBoundary` events, `generate_segment`
(lines 104-117 of `src/main.py`) exhausts its `retries + 1` attempts and
returns the last obtained audio with an empty event list, without raising. -/
theorem retry_returns_last_audio (attempts : List Attempt) (retries : Nat)
    (hlen : attempts.length = retries + 1)
    (hall : ∀ a ∈ attempts, audioNoEv a = true) :
    generate_segment attempts retries = .ok (attemptAudio (attempts.getLastD .err), []) := by
  have hne : attempts ≠ [] := by
    intro h
    rw [h] at hlen
    simp at hlen
  have hr : retries = attempts.length - 1 := by omega
  rw [generate_segment, hr]
  exact genSegAux_all_noev attempts [] [] hne hall

/-- Witness for `retry_returns_last_audio`: three attempts, each with audio
and no events; the third attempt's audio is returned with no events. -/
theorem retry_returns_last_audio_witness :
    generate_segment [.ok [1] [], .ok [2] [], .ok [3] []] 2 =
      .ok (attemptAudio (([Attempt.ok [1] [], .ok [2] [], .ok [3] []]).getLastD .err), []) :=
  retry_returns_last_audio [.ok [1] [], .ok [2] [], .ok [3] []] 2 (by decide) (by decide)

/-! ### Engine errors abort the whole run -/

lemma genSegAux_all_err :
    ∀ (attempts : List Attempt) (retries : Nat) (la : List Nat) (le' : List WEvent),
      retries + 1 ≤ attempts.length → (∀ a ∈ attempts, a = .err) →
      genSegAux attempts retries la le' = .error () := by
  intro attempts
  induction attempts with
  | nil =>
    intro retries la le' h _
    simp at h
  | cons a rest ih =>
    intro retries la le' hlen hall
    have ha : a = .err := hall a (List.mem_cons_self a rest)
    subst ha
    rw [genSegAux]
    by_cases h0 : retries = 0
    · rw [if_pos h0]
    · rw [if_neg h0]
      refine ih (retries - 1) la le' ?_ (fun x hx => hall x (List.mem_cons_of_mem _ hx))
      simp only [List.length_cons] at hlen
      omega

lemma runSegmentsE_err :
    ∀ (segs : List (List Char)) (eng : List (List Attempt)) (st : StitchState)
      (j : Nat) (bad : List Attempt),
      eng[j]? = some bad → (∀ a ∈ bad, a = .err) → 3 ≤ bad.length →
      j < nonBlankCount segs →
      runSegmentsE segs eng st = .error () := by
  intro segs
  induction segs with
  | nil =>
    intro eng st j bad _ _ _ hj
    simp [nonBlankCount] at hj
  | cons seg rest ih =>
    intro eng st j bad hget herr hblen hj
    rw [runSegmentsE]
    by_cases hblank : stripChars seg = []
    · rw [if_pos hblank]
      refine ih eng st j bad hget herr hblen ?_
      simpa [nonBlankCount, List.countP_cons, hblank] using hj
    · rw [if_neg hblank]
      cases eng with
      | nil => simp at hget
      | cons e0 eng' =>
        cases j with
        | zero =>
          have hbe : e0 = bad := by simpa using hget
          subst hbe
          have : generate_segment e0 2 = .error () :=
            genSegAux_all_err e0 2 [] [] (by omega) herr
          rw [List.headD_cons, this]
        | succ j' =>
          have hget' : eng'[j']? = some bad := by simpa using hget
          have hj' : j' < nonBlankCount rest := by
            have : nonBlankCount (seg :: rest) = nonBlankCount rest + 1 := by
              simp [nonBlankCount, List.countP_cons, hblank]
            omega
          rw [List.headD_cons]
          cases hgs : generate_segment e0 2 with
          | error e => rfl
          | ok res =>
            rw [List.tail_cons]
            exact ih eng' (stitchSegment st seg res) j' bad hget' herr hblen hj'

/-- C4: an engine call that raises a transport error on the initial attempt
and on every retry makes `generate_segment` re-raise after exhausting its
retries (lines 119-124 of `src/main.py`), and such a failure on any reached
segment aborts the whole `generate_speech` run with an error — no partial
audio and no partial subtitle text is returned. -/
theorem engine_error_propagates :
    (∀ (attempts : List Attempt) (retries : Nat), retries + 1 ≤ attempts.length →
      (∀ a ∈ attempts, a = .err) → generate_segment attempts retries = .error ()) ∧
    (∀ (text : List Char) (eng : List (List Attempt)) (j : Nat) (bad : List Attempt),
      eng[j]? = some bad → (∀ a ∈ bad, a = .err) → 3 ≤ bad.length →
      j < nonBlankCount (segmentText text) →
      generate_speech text eng = .error ()) := by
  constructor
  · intro attempts retries hlen hall
    exact genSegAux_all_err attempts retries [] [] hlen hall
  · intro text eng j bad hget herr hblen hj
    rw [generate_speech, runSegmentsE_err (segmentText text) eng initState j bad hget herr hblen hj]

/-- Witness for `engine_error_propagates`: three erroring attempts abort the
segment, and one all-erroring segment behaviour aborts a whole run on "Hi". -/
theorem engine_error_propagates_witness :
    generate_segment [.err, .err, .err] 2 = .error () ∧
    generate_speech ['H', 'i'] [[.err, .err, .err]] = .error () :=
  ⟨engine_error_propagates.1 [.err, .err, .err] 2 (by decide) (by decide),
   engine_error_propagates.2 ['H', 'i'] [[.err, .err, .err]] 0 [.err, .err, .err]
     (by decide) (by decide) (by decide) (by decide)⟩

/-! ### The caption grouper -/

lemma groupAux_spec (mw : Nat) (hmw : 1 ≤ mw) :
    ∀ (events chunk : List WEvent) (caps : List Caption),
      chunk.length < mw →
      groupAux mw chunk events = some caps →
      ∃ chunks : List (List WEvent),
        caps = chunks.map chunkCaption ∧
        chunks.flatten = chunk ++ events ∧
        (∀ ch ∈ chunks, ch ≠ [] ∧ ch.length ≤ mw) ∧
        (∀ i : Nat, i + 1 < chunks.length → goodClose mw (chunks.getD i [])) := by
  intro events
  induction events with
  | nil =>
    intro chunk caps hlt hg
    rw [groupAux] at hg
    by_cases hc : chunk = []
    · subst hc
      rw [if_pos rfl] at hg
      obtain rfl : ([] : List Caption) = caps := Option.some.inj hg
      exact ⟨[], by simp, by simp, by simp, by simp⟩
    · rw [if_neg hc] at hg
      obtain rfl : [chunkCaption chunk] = caps := Option.some.inj hg
      refine ⟨[chunk], by simp, by simp, ?_, by simp⟩
      intro ch hch
      rcases List.mem_singleton.mp hch with rfl
      exact ⟨hc, le_of_lt hlt⟩
  | cons e rest ih =>
    intro chunk caps hlt hg
    simp only [groupAux] at hg
    cases hes : endsSentence e.text with
    | none =>
      rw [hes] at hg
      exact Option.noConfusion hg
    | some isEnd =>
      rw [hes] at hg
      dsimp only at hg
      by_cases hcl : mw ≤ (chunk ++ [e]).length ∨ (3 ≤ (chunk ++ [e]).length ∧ isEnd = true)
      · rw [if_pos hcl] at hg
        cases hrec : groupAux mw [] rest with
        | none => rw [hrec] at hg; cases hg
        | some caps' =>
          rw [hrec] at hg
          obtain rfl : chunkCaption (chunk ++ [e]) :: caps' = caps := Option.some.inj hg
          obtain ⟨chunks', h1, h2, h3, h4⟩ :=
            ih [] caps' (by simp only [List.length_nil]; omega) hrec
          refine ⟨(chunk ++ [e]) :: chunks', by simp [h1], ?_, ?_, ?_⟩
          · simp [h2]
          · intro ch hch
            rcases List.mem_cons.mp hch with rfl | hch'
            · refine ⟨by simp, ?_⟩
              have : (chunk ++ [e]).length = chunk.length + 1 := by simp
              omega
            · exact h3 ch hch'
          · intro i hi
            cases i with
            | zero =>
              rw [List.getD_cons_zero]
              rcases hcl with h | h
              · left
                have : (chunk ++ [e]).length = chunk.length + 1 := by simp
                omega
              · right
                refine ⟨h.1, ?_⟩
                rw [List.getLastD_concat, hes, h.2]
            | succ i' =>
              rw [List.getD_cons_succ]
              refine h4 i' ?_
              simp only [List.length_cons] at hi
              omega
      · rw [if_neg hcl] at hg
        push_neg at hcl
        have hlt' : (chunk ++ [e]).length < mw := by
          have := hcl.1
          simp only [List.length_append, List.length_singleton] at this ⊢
          omega
        obtain ⟨chunks, h1, h2, h3, h4⟩ := ih (chunk ++ [e]) caps hlt' hg
        refine ⟨chunks, h1, ?_, h3, h4⟩
        rw [h2]
        simp

lemma wordsFlat_singletons :
    ∀ (ts : List (List Char)), (∀ t ∈ ts, wordsOf t = [t]) → wordsFlat ts = ts := by
  intro ts
  induction ts with
  | nil => intro _; rfl
  | cons t ts' ih =>
    intro h
    rw [wordsFlat_cons, h t (List.mem_cons_self t ts'),
      ih (fun x hx => h x (List.mem_cons_of_mem t hx))]
    rfl

/-- C8: for every event sequence accepted by `group_words_to_captions`
(lines 32-62 of `src/main.py`) with `1 ≤ max_words`, the emitted captions come
from consecutive non-empty chunks of at most `max_words` events covering all
events (so the trailing partial group is flushed), every chunk except
possibly the last was closed either at exactly `max_words` events or with at
least 3 events whose last word ends in `.`, `?`, `!` or `:`; in particular,
when every event text is a single word, no caption spans more than
`max_words` words. -/
theorem caption_word_bound (events : List WEvent) (mw : Nat) (caps : List Caption)
    (hmw : 1 ≤ mw) (hg : group_words_to_captions events mw = some caps) :
    (∃ chunks : List (List WEvent),
      caps = chunks.map chunkCaption ∧
      chunks.flatten = events ∧
      (∀ ch ∈ chunks, ch ≠ [] ∧ ch.length ≤ mw) ∧
      (∀ i : Nat, i + 1 < chunks.length → goodClose mw (chunks.getD i []))) ∧
    ((∀ e ∈ events, e.text ≠ [] ∧ ∀ c ∈ e.text, isWS c = false) →
      ∀ cap ∈ caps, (wordsOf cap.text).length ≤ mw) := by
  rw [group_words_to_captions] at hg
  by_cases hev : events = []
  · subst hev
    rw [if_pos rfl] at hg
    obtain rfl : ([] : List Caption) = caps := Option.some.inj hg
    exact ⟨⟨[], by simp, by simp, by simp, by simp⟩, by simp⟩
  · rw [if_neg hev] at hg
    obtain ⟨chunks, h1, h2, h3, h4⟩ :=
      groupAux_spec mw hmw events [] caps (by simp only [List.length_nil]; omega) hg
    rw [List.nil_append] at h2
    refine ⟨⟨chunks, h1, h2, h3, h4⟩, ?_⟩
    intro hword cap hcap
    rw [h1] at hcap
    rcases List.mem_map.mp hcap with ⟨ch, hch, rfl⟩
    have htexts : ∀ t ∈ ch.map (fun e => e.text), wordsOf t = [t] := by
      intro t ht
      rcases List.mem_map.mp ht with ⟨ev, hev', rfl⟩
      have hevents : ev ∈ events := by
        rw [← h2]
        exact List.mem_flatten.mpr ⟨ch, hch, hev'⟩
      exact wordsOf_single (hword ev hevents).1 (hword ev hevents).2
    show (wordsOf (joinSpace (ch.map (fun e => e.text)))).length ≤ mw
    rw [wordsOf_joinSpace, wordsFlat_singletons _ htexts, List.length_map]
    exact (h3 ch hch).2

/-- Witness for `caption_word_bound`: two single-word events grouped (and
flushed) into one caption of two words with `max_words = 6`. -/
theorem caption_word_bound_witness :
    (∃ chunks : List (List WEvent),
      ([⟨0, 10, ['H', 'i', ' ', 'y', 'o']⟩] : List Caption) = chunks.map chunkCaption ∧
      chunks.flatten = [⟨0, 5, ['H', 'i']⟩, ⟨5, 5, ['y', 'o']⟩] ∧
      (∀ ch ∈ chunks, ch ≠ [] ∧ ch.length ≤ 6) ∧
      (∀ i : Nat, i + 1 < chunks.length → goodClose 6 (chunks.getD i []))) ∧
    ((∀ e ∈ ([⟨0, 5, ['H', 'i']⟩, ⟨5, 5, ['y', 'o']⟩] : List WEvent),
        e.text ≠ [] ∧ ∀ c ∈ e.text, isWS c = false) →
      ∀ cap ∈ ([⟨0, 10, ['H', 'i', ' ', 'y', 'o']⟩] : List Caption),
        (wordsOf cap.text).length ≤ 6) :=
  caption_word_bound [⟨0, 5, ['H', 'i']⟩, ⟨5, 5, ['y', 'o']⟩] 6
    [⟨0, 10, ['H', 'i', ' ', 'y', 'o']⟩] (by decide) (by decide)

/-! ### Totality of the caption grouper -/

lemma endsSentence_eq_none {t : List Char} :
    endsSentence t = none ↔ stripChars t = [] := by
  rw [endsSentence]
  cases h : (stripChars t).getLast? with
  | none =>
    constructor
    · intro _
      exact List.getLast?_eq_none_iff.mp h
    · intro _
      rfl
  | some c =>
    constructor
    · intro h'
      exact Option.noConfusion h'
    · intro hs
      rw [hs] at h
      exact Option.noConfusion h

lemma groupAux_none_iff (mw : Nat) :
    ∀ (events chunk : List WEvent),
      (groupAux mw chunk events = none ↔ ∃ e ∈ events, stripChars e.text = []) := by
  intro events
  induction events with
  | nil => intro chunk; simp [groupAux]
  | cons e rest ih =>
    intro chunk
    simp only [groupAux]
    cases hes : endsSentence e.text with
    | none =>
      have hbad : stripChars e.text = [] := endsSentence_eq_none.mp hes
      constructor
      · intro _
        exact ⟨e, List.mem_cons_self e rest, hbad⟩
      · intro _
        rfl
    | some isEnd =>
      dsimp only
      have hne : stripChars e.text ≠ [] := by
        intro h
        rw [endsSentence_eq_none.mpr h] at hes
        exact Option.noConfusion hes
      by_cases hcl : mw ≤ (chunk ++ [e]).length ∨ (3 ≤ (chunk ++ [e]).length ∧ isEnd = true)
      · rw [if_pos hcl]
        cases hrec : groupAux mw [] rest with
        | none =>
          simp only [hrec]
          constructor
          · intro _
            rcases (ih []).mp hrec with ⟨x, hx, hsx⟩
            exact ⟨x, List.mem_cons_of_mem e hx, hsx⟩
          · intro _
            trivial
        | some caps' =>
          simp only [hrec]
          constructor
          · intro h
            exact Option.noConfusion h
          · rintro ⟨x, hx, hsx⟩
            rcases List.mem_cons.mp hx with rfl | hx'
            · exact absurd hsx hne
            · have hcontra : groupAux mw [] rest = none := (ih []).mpr ⟨x, hx', hsx⟩
              rw [hrec] at hcontra
              exact Option.noConfusion hcontra
      · rw [if_neg hcl, ih (chunk ++ [e])]
        constructor
        · rintro ⟨x, hx, hsx⟩
          exact ⟨x, List.mem_cons_of_mem e hx, hsx⟩
        · rintro ⟨x, hx, hsx⟩
          rcases List.mem_cons.mp hx with rfl | hx'
          · exact absurd hsx hne
          · exact ⟨x, hx', hsx⟩

/-- C10: `group_words_to_captions` (lines 32-62 of `src/main.py`) raises
(`IndexError` on `event['text'].strip()[-1]`, modelled as `none`) exactly
when some event's text is empty or whitespace-only; on event lists whose
texts all have non-empty trimmed content it returns a caption sequence. -/
theorem group_total_iff_nonblank (events : List WEvent) (mw : Nat) :
    group_words_to_captions events mw = none ↔ ∃ e ∈ events, stripChars e.text = [] := by
  rw [group_words_to_captions]
  by_cases hev : events = []
  · subst hev
    simp
  · rw [if_neg hev]
    exact groupAux_none_iff mw events []

/-- The spec's three example values for the time formatter, checked against
the exact-arithmetic model of `format_srt_time` (the source computes with
Python floats; see the definition's comment). -/
theorem format_srt_time_examples :
    format_srt_time 0 = '0' :: '0' :: ':' :: '0' :: '0' :: ':' :: '0' :: '0' :: ',' :: '0' :: '0' :: '0' :: [] ∧
    format_srt_time 10000000 = '0' :: '0' :: ':' :: '0' :: '0' :: ':' :: '0' :: '1' :: ',' :: '0' :: '0' :: '0' :: [] ∧
    format_srt_time 36015000000 = '0' :: '1' :: ':' :: '0' :: '0' :: ':' :: '0' :: '1' :: ',' :: '5' :: '0' :: '0' :: [] := by
  refine ⟨by decide, by decide, by decide⟩

end EdgeTTS
